import Mathlib

/-!
Shallow embedding of the CLOB matching engine (`src/orderbook.rs`, `src/types.rs`).

The Rust engine stores prices and quantities as `f64`; all concrete values the
spec exercises are small integers on the 1e-5 price grid, where `f64`
arithmetic is exact, so they are modelled here as exact rationals (`ℚ`).
`BTreeMap<u64, VecDeque<Order>>` is modelled as an association list
`List (Nat × List Order)` kept in ascending key order (the BTreeMap iteration
order); `VecDeque` front is the list head.  `HashMap<String, Order>` (the
`orders` id index) is an association list.  `Trade.id` (a fresh UUID) and
`timestamp` (wall clock) are nondeterministic I/O and are omitted from the
`Trade` record; no claim refers to them.
-/

namespace CLOB

inductive OrderSide where
  | Buy
  | Sell
deriving DecidableEq

inductive OrderType where
  | LimitOrder
  | MarketOrder
deriving DecidableEq

/-- `Order` from `types.rs` (timestamp omitted; `f64` modelled as `ℚ`). -/
structure Order where
  id : String
  user_id : String
  side : OrderSide
  order_type : OrderType
  price : Option ℚ
  quantity : ℚ
  remaining_quantity : ℚ
deriving DecidableEq

/-- `Trade` from `types.rs` (UUID id and wall-clock timestamp omitted). -/
structure Trade where
  buy_order_id : String
  sell_order_id : String
  price : ℚ
  quantity : ℚ
deriving DecidableEq

inductive OrderResponse where
  | Placed (order_id : String)
  | PartiallyFilled (order_id : String) (filled_quantity : ℚ)
      (remaining_quantity : ℚ) (trades : List Trade)
  | Filled (order_id : String) (filled_quantity : ℚ) (trades : List Trade)
  | Cancelled (order_id : String)
  | Error (message : String)
deriving DecidableEq

structure OrderbookSnapshot where
  bids : List (ℚ × ℚ)
  asks : List (ℚ × ℚ)
deriving DecidableEq

/-- A price level: BTreeMap key paired with its FIFO queue (front = head). -/
abbrev Level := Nat × List Order

/-- `Orderbook` state: `bids`/`asks` are the BTreeMaps as ascending-key
association lists, `orders` is the HashMap id index. -/
structure Orderbook where
  bids : List Level
  asks : List Level
  orders : List (String × Order)
deriving DecidableEq

def Orderbook.emptyBook : Orderbook := ⟨[], [], []⟩

/-- `price_to_key`: `(price * 100000.0) as u64` (truncation toward zero;
negative values clamp to 0, as the Rust `as` cast does). -/
def price_to_key (price : ℚ) : Nat := (price * 100000).floor.toNat

/-- `key_to_price`: `cent as f64 / 100000.0`. -/
def key_to_price (cent : Nat) : ℚ := (cent : ℚ) / 100000

/-- Builds the `Trade` record: the Buy side id is the taker's when the taker
buys, the maker's when the taker sells (lines 117-133 / 196-212). -/
def mkTrade (takerSide : OrderSide) (takerId makerId : String)
    (price quantity : ℚ) : Trade :=
  match takerSide with
  | .Buy => { buy_order_id := takerId, sell_order_id := makerId,
              price := price, quantity := quantity }
  | .Sell => { buy_order_id := makerId, sell_order_id := takerId,
               price := price, quantity := quantity }

/-- Result of the inner `while let Some(m) = queue.pop_front()` loop at one
price level: trades pushed, the taker's final `remaining_quantity`, the
queue left behind, and the ids of exhausted makers (which the market-order
variant erases from the id index). -/
structure QueueResult where
  trades : List Trade
  rem : ℚ
  queue : List Order
  removed : List String
deriving DecidableEq

/-- The inner loop shared by `match_market_order` and `match_limit_order`
(lines 111-149 and 190-226): pop the head maker, trade
`min(taker.remaining, maker.remaining)` at the maker's price, decrement both
sides; a maker with remainder is pushed back at the head, an exhausted maker
is dropped (and recorded for id-index erasure); stop when the taker is done.
When the maker is pushed back (`0 < mRem2`) the trade took `tq = rem`, so the
taker's remainder is 0 and the source loop breaks immediately after. -/
def matchQueue (takerSide : OrderSide) (takerId : String) :
    ℚ → List Order → QueueResult
  | rem, [] => ⟨[], rem, [], []⟩
  | rem, m :: rest =>
    let tq := min rem m.remaining_quantity
    let t := mkTrade takerSide takerId m.id (m.price.getD 0) tq
    let rem2 := rem - tq
    let mRem2 := m.remaining_quantity - tq
    if 0 < mRem2 then
      ⟨[t], rem2, { m with remaining_quantity := mRem2 } :: rest, []⟩
    else if rem2 ≤ 0 then
      ⟨[t], rem2, rest, [m.id]⟩
    else
      let r := matchQueue takerSide takerId rem2 rest
      ⟨t :: r.trades, r.rem, r.queue, m.id :: r.removed⟩

/-- Result of walking the opposite side's levels in traversal order. -/
structure WalkResult where
  trades : List Trade
  rem : ℚ
  levels : List Level
  removed : List String
deriving DecidableEq

/-- The outer `for price_key in keys` loop: levels are given in traversal
order (ascending for a Buy taker over asks, descending — i.e. the reversed
list — for a Sell taker over bids).  A limit taker stops at the first key
failing its price predicate (`should_match`), both kinds stop once the taker
has no remainder; a level whose queue empties is removed from the map.
Surviving levels are returned in traversal order. -/
def walkLevels (pred : Nat → Bool) (takerSide : OrderSide) (takerId : String) :
    ℚ → List Level → WalkResult
  | rem, [] => ⟨[], rem, [], []⟩
  | rem, (k, q) :: rest =>
    if ¬ pred k then ⟨[], rem, (k, q) :: rest, []⟩
    else if rem ≤ 0 then ⟨[], rem, (k, q) :: rest, []⟩
    else
      let r := matchQueue takerSide takerId rem q
      let w := walkLevels pred takerSide takerId r.rem rest
      ⟨r.trades ++ w.trades, w.rem,
       if r.queue.isEmpty then w.levels else (k, r.queue) :: w.levels,
       r.removed ++ w.removed⟩

/-- `HashMap::remove` applied for each exhausted maker id. -/
def removeIds (m : List (String × Order)) (ids : List String) :
    List (String × Order) :=
  ids.foldl (fun acc i => acc.eraseP (fun kv => kv.1 == i)) m

structure MatchResult where
  trades : List Trade
  rem : ℚ
  book : Orderbook
deriving DecidableEq

/-- `match_market_order` (lines 93-157): walk every opposite-side level
(no price predicate), erase exhausted makers from the id index. -/
def match_market_order (ob : Orderbook) (o : Order) : MatchResult :=
  match o.side with
  | .Buy =>
    let r := walkLevels (fun _ => true) .Buy o.id o.remaining_quantity ob.asks
    ⟨r.trades, r.rem,
     { ob with asks := r.levels, orders := removeIds ob.orders r.removed }⟩
  | .Sell =>
    let r := walkLevels (fun _ => true) .Sell o.id o.remaining_quantity
      ob.bids.reverse
    ⟨r.trades, r.rem,
     { ob with bids := r.levels.reverse,
               orders := removeIds ob.orders r.removed }⟩

/-- `should_match` (lines 176-179): a Buy taker matches a level while
`order_price >= key_to_price(key)`, a Sell taker while
`order_price <= key_to_price(key)`. -/
def limitPred (side : OrderSide) (order_price : ℚ) (k : Nat) : Bool :=
  match side with
  | .Buy => key_to_price k ≤ order_price
  | .Sell => order_price ≤ key_to_price k

/-- `match_limit_order` (lines 159-233): same walk restricted by
`should_match`; unlike the market variant it never touches the id index. -/
def match_limit_order (ob : Orderbook) (o : Order) : MatchResult :=
  let p := o.price.getD 0
  match o.side with
  | .Buy =>
    let r := walkLevels (limitPred .Buy p) .Buy o.id o.remaining_quantity
      ob.asks
    ⟨r.trades, r.rem, { ob with asks := r.levels }⟩
  | .Sell =>
    let r := walkLevels (limitPred .Sell p) .Sell o.id o.remaining_quantity
      ob.bids.reverse
    ⟨r.trades, r.rem, { ob with bids := r.levels.reverse }⟩

/-- `BTreeMap::entry(key).or_insert_with(VecDeque::new).push_back(order)`:
insert at the sorted position, appending to the tail of an existing queue. -/
def insertLevel (k : Nat) (o : Order) : List Level → List Level
  | [] => [(k, [o])]
  | (k', q) :: rest =>
    if k < k' then (k, [o]) :: (k', q) :: rest
    else if k = k' then (k', q ++ [o]) :: rest
    else (k', q) :: insertLevel k o rest

/-- `add_to_book` (lines 235-247).  Note: the source does NOT insert the
order into the `orders` id index. -/
def add_to_book (ob : Orderbook) (o : Order) : Orderbook :=
  let key := price_to_key (o.price.getD 0)
  match o.side with
  | .Buy => { ob with bids := insertLevel key o ob.bids }
  | .Sell => { ob with asks := insertLevel key o ob.asks }

/-- `add_order` (lines 32-91).  Returns the response together with the
mutated book (`&mut self` in the source). -/
def add_order (ob : Orderbook) (o : Order) : OrderResponse × Orderbook :=
  let original_quantity := o.quantity
  match o.order_type with
  | .MarketOrder =>
    let r := match_market_order ob o
    if 0 < r.rem then
      (.Error "Insufficient liquidity for market order", r.book)
    else if r.trades.isEmpty then
      (.Error "No matching orders available", r.book)
    else
      (.Filled o.id original_quantity r.trades, r.book)
  | .LimitOrder =>
    if o.price.isNone then
      (.Error "limit order must have price", ob)
    else
      let r := match_limit_order ob o
      if 0 < r.rem then
        let ob2 := add_to_book r.book { o with remaining_quantity := r.rem }
        if r.trades.isEmpty then
          (.Placed o.id, ob2)
        else
          (.PartiallyFilled o.id (original_quantity - o.quantity) r.rem
            r.trades, ob2)
      else
        (.Filled o.id o.quantity r.trades, r.book)

/-- Fixture: a fresh Limit order of the given side, price and quantity
(`remaining_quantity` initialized to `quantity`, as at submission time). -/
def mkLimit (i : String) (s : OrderSide) (p qty : ℚ) : Order :=
  ⟨i, "u", s, .LimitOrder, some p, qty, qty⟩

/-- Fixture: a fresh Market order (no price). -/
def mkMarket (i : String) (s : OrderSide) (qty : ℚ) : Order :=
  ⟨i, "u", s, .MarketOrder, none, qty, qty⟩

/-- Fixture: a book holding a single resting Sell Limit 3 @ 100. -/
def askBook3at100 : Orderbook :=
  ⟨[], [(10000000, [mkLimit "S" .Sell 100 3])], []⟩

/-- Fixture: the same resting Sell also present in the id index (as the spec
describes the index being maintained). -/
def sellIndexBook : Orderbook :=
  ⟨[], [(10000000, [mkLimit "S" .Sell 100 3])], [("S", mkLimit "S" .Sell 100 3)]⟩

/-- Fixture: the book after the C1 scenario — the Buy taker's residual 7
rested at key 10000000. -/
def pfBook : Orderbook :=
  ⟨[(10000000, [⟨"B", "u", .Buy, .LimitOrder, some 100, 10, 7⟩])], [], []⟩

/-- Sum of the orders' `remaining_quantity` in one queue (the aggregation
`get_snapshot` performs per level, lines 252 and 258). -/
def levelQty (q : List Order) : ℚ := (q.map Order.remaining_quantity).sum

/-- `get_snapshot` (lines 249-263): bids walked in reverse (descending)
order, asks in ascending order, each level aggregated to
`(price, total remaining quantity)`. -/
def get_snapshot (ob : Orderbook) : OrderbookSnapshot :=
  { bids := ob.bids.reverse.map (fun kv => (key_to_price kv.1, levelQty kv.2)),
    asks := ob.asks.map (fun kv => (key_to_price kv.1, levelQty kv.2)) }

/-- Folding a sequence of submissions through `add_order`, starting from the
empty book: the reachable engine states. -/
def applyOrders (os : List Order) : Orderbook :=
  os.foldl (fun b o => (add_order b o).2) Orderbook.emptyBook

/-- Fixture: a book holding a single resting Sell Limit 4 @ 105. -/
def askBook4at105 : Orderbook :=
  ⟨[], [(10500000, [mkLimit "S" .Sell 105 4])], []⟩

/-- Fixture: two resting Sells 5 @ 100 at the same level, "S1" ahead of
"S2" in time priority. -/
def twoSellsBook : Orderbook :=
  ⟨[], [(10000000, [mkLimit "S1" .Sell 100 5, mkLimit "S2" .Sell 100 5])], []⟩

/-- Sum of the quantities of a list of trades. -/
def sumQ (ts : List Trade) : ℚ := (ts.map Trade.quantity).sum

/-- Total remaining quantity resting on one side of the book. -/
def sideQty (l : List Level) : ℚ := (l.map (fun kv => levelQty kv.2)).sum

/-- Total remaining quantity resting on the whole book (both sides). -/
def bookTotal (ob : Orderbook) : ℚ := sideQty ob.bids + sideQty ob.asks

/-- The spec's per-order book invariant: a queued order is a Limit with
positive remaining quantity, carries a price, and that price quantizes to
the key it is filed under. -/
def goodOrder (k : Nat) (o : Order) : Prop :=
  o.order_type = .LimitOrder ∧ 0 < o.remaining_quantity ∧
    o.price.isSome = true ∧ price_to_key (o.price.getD 0) = k

/-- Well-formedness of one book side: every present level has a non-empty
queue (key present iff queue non-empty) all of whose orders satisfy
`goodOrder` for the level's key. -/
def WFside (l : List Level) : Prop :=
  ∀ kv ∈ l, kv.2 ≠ [] ∧ ∀ o ∈ kv.2, goodOrder kv.1 o

/-- Well-formedness of the whole book. -/
def WFbook (ob : Orderbook) : Prop := WFside ob.bids ∧ WFside ob.asks

/-- Keys of one book side are strictly ascending (the BTreeMap ordering the
association list mirrors). -/
def sortedSide (l : List Level) : Prop :=
  (l.map Prod.fst).Pairwise (· < ·)

/-- Both sides' key lists are strictly ascending. -/
def sortedBook (ob : Orderbook) : Prop := sortedSide ob.bids ∧ sortedSide ob.asks

theorem walkLevels_nonpos (pred : Nat → Bool) (s : OrderSide) (i : String)
    (rem : ℚ) (l : List Level) (h : rem ≤ 0) :
    walkLevels pred s i rem l = ⟨[], rem, l, []⟩ := by
  cases l with
  | nil => rfl
  | cons kv rest =>
    obtain ⟨k, q⟩ := kv
    by_cases hp : pred k
    · simp [walkLevels, hp, h]
    · simp [walkLevels, hp]

/-- Claim C1: code bug — `add_order` builds `PartiallyFilled` with
`filled_quantity = original_quantity - order.quantity`, but matching only
ever decrements `remaining_quantity`, so the reported `filled_quantity` is
always 0.  On the spec's scenario (resting Sell Limit 3 @ 100, submit Buy
Limit 10 @ 100) the code answers `PartiallyFilled` with `filled_quantity` 0
(not 3), `remaining_quantity` 7, one trade (100, 3), and rests the residual
7 on the bid side. -/
theorem c1_partial_fill_reports_zero :
    add_order (add_order Orderbook.emptyBook (mkLimit "S" .Sell 100 3)).2
        (mkLimit "B" .Buy 100 10) =
      (.PartiallyFilled "B" 0 7 [⟨"B", "S", 100, 3⟩], pfBook) ∧
    (∀ (ob : Orderbook) (o : Order),
      match (add_order ob o).1 with
      | .PartiallyFilled _ fq _ _ => fq = 0
      | _ => True) := by
  constructor
  · with_unfolding_all rfl
  · intro ob o
    obtain ⟨i, u, s, t, p, q, rq⟩ := o
    cases t
    · simp only [add_order]
      by_cases hn : (Option.isNone p) = true
      · simp [hn]
      · simp only [hn, Bool.false_eq_true, if_false]
        by_cases h1 : 0 < (match_limit_order ob
            ⟨i, u, s, .LimitOrder, p, q, rq⟩).rem
        · by_cases h2 : (match_limit_order ob
              ⟨i, u, s, .LimitOrder, p, q, rq⟩).trades.isEmpty = true
          · simp [h1, h2]
          · simp [h1, h2]
        · simp [h1]
    · simp only [add_order]
      by_cases h1 : 0 < (match_market_order ob
          ⟨i, u, s, .MarketOrder, p, q, rq⟩).rem
      · simp [h1]
      · by_cases h2 : (match_market_order ob
            ⟨i, u, s, .MarketOrder, p, q, rq⟩).trades.isEmpty = true
        · simp [h1, h2]
        · simp [h1, h2]

/-- Claim C2 counterexample: on an empty book, a Buy Market 5 is rejected
with "Insufficient liquidity for market order" (the `remaining_quantity > 0`
check fires before the `trades.is_empty()` check), not with
"No matching orders available" as the claim states. -/
theorem c2_counterexample :
    (add_order Orderbook.emptyBook (mkMarket "M" .Buy 5)).1 =
      .Error "Insufficient liquidity for market order" ∧
    (add_order Orderbook.emptyBook (mkMarket "M" .Buy 5)).1 ≠
      .Error "No matching orders available" := by
  constructor
  · with_unfolding_all rfl
  · with_unfolding_all decide

/-- Claim C2 (amended): a Buy Market order with positive remaining quantity
against an empty ask side returns `Error "Insufficient liquidity for market
order"` and leaves the book unchanged. -/
theorem c2_market_empty_side (ob : Orderbook) (o : Order)
    (hty : o.order_type = .MarketOrder) (hside : o.side = .Buy)
    (hq : 0 < o.remaining_quantity) (ha : ob.asks = []) :
    add_order ob o = (.Error "Insufficient liquidity for market order", ob) := by
  obtain ⟨i, u, s, t, p, q, rq⟩ := o
  simp only at hty hside hq
  subst hty hside
  obtain ⟨bs, aks, om⟩ := ob
  simp only at ha
  subst ha
  simp [add_order, match_market_order, walkLevels, removeIds, hq]

/-- Claim C2 witness: the amended statement at the concrete input (empty
book, Buy Market 5). -/
theorem c2_witness :
    add_order Orderbook.emptyBook (mkMarket "M" .Buy 5) =
      (.Error "Insufficient liquidity for market order", Orderbook.emptyBook) :=
  c2_market_empty_side Orderbook.emptyBook (mkMarket "M" .Buy 5) rfl rfl
    (by norm_num [mkMarket]) rfl

/-- Claim C3 counterexample: `add_to_book` does not insert the rested order
into the `orders` id index (the index stays empty), and `match_limit_order`
does not erase an exhausted maker from the index (the Buy Limit 3 @ 100
fully consumes maker "S", yet "S" stays indexed). -/
theorem c3_counterexample :
    (add_to_book Orderbook.emptyBook (mkLimit "S" .Sell 100 3)).orders = [] ∧
    (match_limit_order sellIndexBook (mkLimit "B" .Buy 100 3)).book.orders =
      [("S", mkLimit "S" .Sell 100 3)] := by
  exact ⟨rfl, by with_unfolding_all rfl⟩

/-- Claim C3 (amended): the id index is never written on insert
(`add_to_book` leaves `orders` untouched) and limit matching never erases
from it; only `match_market_order` erases exhausted makers from the index
(shown on a concrete full fill). -/
theorem c3_id_index :
    (∀ (ob : Orderbook) (o : Order), (add_to_book ob o).orders = ob.orders) ∧
    (∀ (ob : Orderbook) (o : Order),
      (match_limit_order ob o).book.orders = ob.orders) ∧
    (match_market_order sellIndexBook (mkMarket "M" .Buy 3)).book.orders =
      [] := by
  refine ⟨?_, ?_, ?_⟩
  · intro ob o
    obtain ⟨i, u, s, t, p, q, rq⟩ := o
    cases s <;> rfl
  · intro ob o
    obtain ⟨i, u, s, t, p, q, rq⟩ := o
    cases s <;> rfl
  · with_unfolding_all rfl

/-- Claim C4: a Market order that still has remaining quantity after walking
all opposite-side liquidity is answered `Error "Insufficient liquidity for
market order"` carrying no trades, while the book stays exactly as the
partial walk left it (consumed liquidity is not rolled back). -/
theorem c4_market_insufficient (ob : Orderbook) (o : Order)
    (hty : o.order_type = .MarketOrder)
    (hrem : 0 < (match_market_order ob o).rem) :
    add_order ob o =
      (.Error "Insufficient liquidity for market order",
       (match_market_order ob o).book) := by
  obtain ⟨i, u, s, t, p, q, rq⟩ := o
  simp only at hty
  subst hty
  simp [add_order, hrem]

/-- Claim C4 witness: Buy Market 10 against a book holding only Sell Limit
3 @ 100 — the error is returned, yet the resting 3 have been consumed (the
ask side ends empty though it was non-empty before). -/
theorem c4_witness :
    add_order askBook3at100 (mkMarket "M" .Buy 10) =
      (.Error "Insufficient liquidity for market order",
       (match_market_order askBook3at100 (mkMarket "M" .Buy 10)).book) ∧
    (match_market_order askBook3at100 (mkMarket "M" .Buy 10)).book.asks = [] ∧
    askBook3at100.asks ≠ [] :=
  ⟨c4_market_insufficient askBook3at100 (mkMarket "M" .Buy 10) rfl
      (by with_unfolding_all decide),
   by with_unfolding_all rfl,
   by simp [askBook3at100]⟩

theorem walkLevels_takeWhile (pred : Nat → Bool) (s : OrderSide) (i : String)
    (rem : ℚ) (l : List Level) :
    walkLevels pred s i rem l =
      ⟨(walkLevels (fun _ => true) s i rem
          (l.takeWhile (fun kv => pred kv.1))).trades,
       (walkLevels (fun _ => true) s i rem
          (l.takeWhile (fun kv => pred kv.1))).rem,
       (walkLevels (fun _ => true) s i rem
          (l.takeWhile (fun kv => pred kv.1))).levels
         ++ l.dropWhile (fun kv => pred kv.1),
       (walkLevels (fun _ => true) s i rem
          (l.takeWhile (fun kv => pred kv.1))).removed⟩ := by
  induction l generalizing rem with
  | nil => rfl
  | cons kv rest ih =>
    obtain ⟨k, q⟩ := kv
    by_cases hp : pred k
    · simp only [List.takeWhile_cons, List.dropWhile_cons, hp, if_true]
      by_cases hr : rem ≤ 0
      · simp [walkLevels, hp, hr, List.takeWhile_append_dropWhile]
      · simp only [walkLevels, hp, hr, if_false, not_true_eq_false,
          Bool.not_true, Bool.false_eq_true, ite_false, ite_true,
          not_false_eq_true, Bool.not_false]
        rw [ih]
        by_cases hq : (matchQueue s i rem q).queue.isEmpty = true <;>
          simp [hq, List.cons_append]
    · simp [walkLevels, hp, List.takeWhile_cons, List.dropWhile_cons]

/-- Claim C5: a Limit taker consumes the opposite side best-price-first and
only over the maximal prefix of levels (in traversal order: ascending asks
for a Buy, descending bids for a Sell) satisfying its limit predicate —
levels beyond the first violating key are left exactly as they were.  The
prefix members satisfy the predicate (Buy: level price ≤ P, Sell: level
price ≥ P).  In particular, with a resting Sell Limit 4 @ 105, a Buy Limit
3 @ 104 produces no trades and is `Placed`. -/
theorem c5_limit_best_price_walk :
    (∀ (ob : Orderbook) (o : Order) (p : ℚ),
      o.order_type = .LimitOrder → o.price = some p → o.side = .Buy →
      match_limit_order ob o =
        ⟨(walkLevels (fun _ => true) .Buy o.id o.remaining_quantity
            (ob.asks.takeWhile (fun kv => limitPred .Buy p kv.1))).trades,
         (walkLevels (fun _ => true) .Buy o.id o.remaining_quantity
            (ob.asks.takeWhile (fun kv => limitPred .Buy p kv.1))).rem,
         { ob with asks :=
            (walkLevels (fun _ => true) .Buy o.id o.remaining_quantity
              (ob.asks.takeWhile (fun kv => limitPred .Buy p kv.1))).levels
            ++ ob.asks.dropWhile (fun kv => limitPred .Buy p kv.1) }⟩) ∧
    (∀ (ob : Orderbook) (o : Order) (p : ℚ),
      o.order_type = .LimitOrder → o.price = some p → o.side = .Sell →
      match_limit_order ob o =
        ⟨(walkLevels (fun _ => true) .Sell o.id o.remaining_quantity
            (ob.bids.reverse.takeWhile (fun kv => limitPred .Sell p kv.1))).trades,
         (walkLevels (fun _ => true) .Sell o.id o.remaining_quantity
            (ob.bids.reverse.takeWhile (fun kv => limitPred .Sell p kv.1))).rem,
         { ob with bids :=
            ((walkLevels (fun _ => true) .Sell o.id o.remaining_quantity
              (ob.bids.reverse.takeWhile (fun kv => limitPred .Sell p kv.1))).levels
            ++ ob.bids.reverse.dropWhile (fun kv => limitPred .Sell p kv.1)).reverse }⟩) ∧
    (∀ (p : ℚ) (l : List Level) (kv : Level),
      kv ∈ l.takeWhile (fun kv => limitPred .Buy p kv.1) →
        key_to_price kv.1 ≤ p) ∧
    (∀ (p : ℚ) (l : List Level) (kv : Level),
      kv ∈ l.takeWhile (fun kv => limitPred .Sell p kv.1) →
        p ≤ key_to_price kv.1) ∧
    add_order askBook4at105 (mkLimit "B" .Buy 104 3) =
      (.Placed "B",
       ⟨[(10400000, [mkLimit "B" .Buy 104 3])],
        [(10500000, [mkLimit "S" .Sell 105 4])], []⟩) := by
  refine ⟨?_, ?_, ?_, ?_, ?_⟩
  · intro ob o p hty hp hside
    obtain ⟨i, u, s, t, pr, q, rq⟩ := o
    simp only at hty hp hside
    subst hty hp hside
    simp only [match_limit_order, Option.getD_some]
    rw [walkLevels_takeWhile]
  · intro ob o p hty hp hside
    obtain ⟨i, u, s, t, pr, q, rq⟩ := o
    simp only at hty hp hside
    subst hty hp hside
    simp only [match_limit_order, Option.getD_some]
    rw [walkLevels_takeWhile]
  · intro p l kv hkv
    have h := List.mem_takeWhile_imp hkv
    simpa [limitPred] using h
  · intro p l kv hkv
    have h := List.mem_takeWhile_imp hkv
    simpa [limitPred] using h
  · with_unfolding_all rfl

/-- Claim C5 witness: the Buy-side walk characterization instantiated on the
non-crossing scenario (resting Sell 4 @ 105, Buy Limit 3 @ 104): the
predicate fails at the very first level, so nothing trades and the ask side
is untouched. -/
theorem c5_witness :
    match_limit_order askBook4at105 (mkLimit "B" .Buy 104 3) =
      ⟨[], 3, askBook4at105⟩ := by
  have h := c5_limit_best_price_walk.1 askBook4at105 (mkLimit "B" .Buy 104 3)
    104 rfl rfl rfl
  rw [h]
  with_unfolding_all rfl

/-- Claim C6: matching within a level pops from the queue head, trades
`min(taker remaining, maker remaining)` at the maker's resting price, and a
partially consumed maker is pushed back at the head with the rest of the
queue (its time priority) intact.  Concretely, Buy Limit 2 @ 110 against
resting Sell Limit 2 @ 100 fills at price 100, and Buy Limit 3 @ 100 against
makers [S1: 5, S2: 5] trades 3 with S1 and leaves [S1: 2, S2: 5]. -/
theorem c6_fifo_min_maker_price :
    (∀ (s : OrderSide) (tid : String) (rem : ℚ) (m : Order)
        (rest : List Order) (p : ℚ), m.price = some p →
      ((matchQueue s tid rem (m :: rest)).trades.head? =
        some (mkTrade s tid m.id p (min rem m.remaining_quantity)) ∧
       (0 < m.remaining_quantity - min rem m.remaining_quantity →
        matchQueue s tid rem (m :: rest) =
          ⟨[mkTrade s tid m.id p (min rem m.remaining_quantity)],
           rem - min rem m.remaining_quantity,
           { m with remaining_quantity :=
              m.remaining_quantity - min rem m.remaining_quantity } :: rest,
           []⟩))) ∧
    add_order (add_order Orderbook.emptyBook (mkLimit "S" .Sell 100 2)).2
        (mkLimit "B" .Buy 110 2) =
      (.Filled "B" 2 [⟨"B", "S", 100, 2⟩], Orderbook.emptyBook) ∧
    add_order twoSellsBook (mkLimit "B" .Buy 100 3) =
      (.Filled "B" 3 [⟨"B", "S1", 100, 3⟩],
       ⟨[], [(10000000, [⟨"S1", "u", .Sell, .LimitOrder, some 100, 5, 2⟩,
                         mkLimit "S2" .Sell 100 5])], []⟩) := by
  refine ⟨?_, ?_, ?_⟩
  · intro s tid rem m rest p hp
    constructor
    · simp only [matchQueue, hp, Option.getD_some]
      by_cases h1 : 0 < m.remaining_quantity - min rem m.remaining_quantity
      · simp [h1]
      · by_cases h2 : rem - min rem m.remaining_quantity ≤ 0
        · simp [h1, h2]
        · simp [h1, h2]
    · intro h1
      simp [matchQueue, h1, hp]
  · with_unfolding_all rfl
  · with_unfolding_all rfl

/-- Claim C6 witness: the head-of-queue characterization instantiated on
makers [S1: 5, S2: 5] and a taker remainder of 3 — the trade is
(min 3 5 = 3) at S1's price 100, and S1 goes back to the head with 2 left,
ahead of S2. -/
theorem c6_witness :
    (matchQueue .Buy "B" 3
        [mkLimit "S1" .Sell 100 5, mkLimit "S2" .Sell 100 5]).trades.head? =
      some (mkTrade .Buy "B" "S1" 100 (min 3 5)) ∧
    matchQueue .Buy "B" 3 [mkLimit "S1" .Sell 100 5, mkLimit "S2" .Sell 100 5] =
      ⟨[mkTrade .Buy "B" "S1" 100 (min 3 5)], 3 - min 3 5,
       { mkLimit "S1" .Sell 100 5 with remaining_quantity := 5 - min 3 5 } ::
         [mkLimit "S2" .Sell 100 5], []⟩ :=
  ⟨(c6_fifo_min_maker_price.1 .Buy "B" 3 (mkLimit "S1" .Sell 100 5)
      [mkLimit "S2" .Sell 100 5] 100 rfl).1,
   (c6_fifo_min_maker_price.1 .Buy "B" 3 (mkLimit "S1" .Sell 100 5)
      [mkLimit "S2" .Sell 100 5] 100 rfl).2 (by with_unfolding_all decide)⟩

theorem mkTrade_quantity (s : OrderSide) (a b : String) (p q : ℚ) :
    (mkTrade s a b p q).quantity = q := by
  cases s <;> rfl

theorem sumQ_append (ts us : List Trade) :
    sumQ (ts ++ us) = sumQ ts + sumQ us := by
  simp [sumQ]

theorem matchQueue_sum_eq (s : OrderSide) (i : String) (rem : ℚ)
    (q : List Order) :
    sumQ (matchQueue s i rem q).trades = rem - (matchQueue s i rem q).rem := by
  induction q generalizing rem with
  | nil => simp [matchQueue, sumQ]
  | cons m rest ih =>
    simp only [matchQueue]
    by_cases h1 : 0 < m.remaining_quantity - min rem m.remaining_quantity
    · simp [h1, sumQ, mkTrade_quantity]
    · by_cases h2 : rem - min rem m.remaining_quantity ≤ 0
      · simp [h1, h2, sumQ, mkTrade_quantity]
      · simp only [h1, h2, if_false, ite_false]
        simp [sumQ, mkTrade_quantity, ih]
        have := ih (rem - min rem m.remaining_quantity)
        simp [sumQ] at this
        linarith

theorem levelQty_nil : levelQty [] = 0 := rfl

theorem levelQty_cons (o : Order) (q : List Order) :
    levelQty (o :: q) = o.remaining_quantity + levelQty q := by
  simp [levelQty]

theorem sideQty_nil : sideQty [] = 0 := rfl

theorem sideQty_cons (kv : Level) (rest : List Level) :
    sideQty (kv :: rest) = levelQty kv.2 + sideQty rest := by
  simp [sideQty]

theorem matchQueue_qty_conserved (s : OrderSide) (i : String) (rem : ℚ)
    (q : List Order) :
    levelQty q = levelQty (matchQueue s i rem q).queue +
      sumQ (matchQueue s i rem q).trades := by
  induction q generalizing rem with
  | nil => simp [matchQueue, levelQty, sumQ]
  | cons m rest ih =>
    simp only [matchQueue]
    by_cases h1 : 0 < m.remaining_quantity - min rem m.remaining_quantity
    · rw [if_pos h1]
      simp only [levelQty, sumQ, List.map_cons, List.sum_cons, List.map_nil,
        List.sum_nil, mkTrade_quantity]
      ring
    · have hmin : min rem m.remaining_quantity = m.remaining_quantity := by
        have ha := min_le_right rem m.remaining_quantity
        have hb := not_lt.mp h1
        linarith
      rw [if_neg h1]
      by_cases h2 : rem - min rem m.remaining_quantity ≤ 0
      · rw [if_pos h2]
        simp only [levelQty, sumQ, List.map_cons, List.sum_cons, List.map_nil,
          List.sum_nil, mkTrade_quantity]
        rw [hmin]
        ring
      · rw [if_neg h2]
        have hrec := ih (rem - min rem m.remaining_quantity)
        simp only [levelQty, sumQ, List.map_cons, List.sum_cons,
          mkTrade_quantity] at hrec ⊢
        linarith

theorem matchQueue_rem_nonneg (s : OrderSide) (i : String) (rem : ℚ)
    (q : List Order) (h : 0 ≤ rem) :
    0 ≤ (matchQueue s i rem q).rem := by
  induction q generalizing rem with
  | nil => simpa [matchQueue]
  | cons m rest ih =>
    simp only [matchQueue]
    have hle : min rem m.remaining_quantity ≤ rem := min_le_left _ _
    by_cases h1 : 0 < m.remaining_quantity - min rem m.remaining_quantity
    · rw [if_pos h1]
      dsimp only
      linarith
    · rw [if_neg h1]
      by_cases h2 : rem - min rem m.remaining_quantity ≤ 0
      · rw [if_pos h2]
        dsimp only
        linarith
      · rw [if_neg h2]
        dsimp only
        exact ih _ (by linarith)

theorem walkLevels_sum_eq (pred : Nat → Bool) (s : OrderSide) (i : String)
    (rem : ℚ) (l : List Level) :
    sumQ (walkLevels pred s i rem l).trades =
      rem - (walkLevels pred s i rem l).rem := by
  induction l generalizing rem with
  | nil => simp [walkLevels, sumQ]
  | cons kv rest ih =>
    obtain ⟨k, q⟩ := kv
    simp only [walkLevels]
    by_cases hp : pred k
    · by_cases hr : rem ≤ 0
      · simp [hp, hr, sumQ]
      · simp only [hp, hr, not_true_eq_false, Bool.not_true, if_false,
          ite_false, ite_true, not_false_eq_true, Bool.false_eq_true]
        rw [sumQ_append, matchQueue_sum_eq, ih]
        ring
    · simp [hp, sumQ]

theorem walkLevels_qty_conserved (pred : Nat → Bool) (s : OrderSide)
    (i : String) (rem : ℚ) (l : List Level) :
    sideQty l = sideQty (walkLevels pred s i rem l).levels +
      sumQ (walkLevels pred s i rem l).trades := by
  induction l generalizing rem with
  | nil => simp [walkLevels, sideQty, sumQ]
  | cons kv rest ih =>
    obtain ⟨k, q⟩ := kv
    simp only [walkLevels]
    by_cases hp : pred k
    · by_cases hr : rem ≤ 0
      · simp [hp, hr, sumQ]
      · simp only [hp, hr, not_true_eq_false, Bool.not_true, if_false,
          ite_false, ite_true, not_false_eq_true, Bool.false_eq_true]
        rw [sumQ_append]
        have hmq := matchQueue_qty_conserved s i rem q
        have hw := ih (matchQueue s i rem q).rem
        by_cases hq : (matchQueue s i rem q).queue.isEmpty = true
        · have hnil : (matchQueue s i rem q).queue = [] :=
            List.isEmpty_iff.mp hq
          rw [if_pos hq, sideQty_cons]
          rw [hnil, levelQty_nil] at hmq
          linarith
        · rw [if_neg hq, sideQty_cons, sideQty_cons]
          linarith
    · simp [hp, sumQ]

theorem walkLevels_rem_nonneg (pred : Nat → Bool) (s : OrderSide) (i : String)
    (rem : ℚ) (l : List Level) (h : 0 ≤ rem) :
    0 ≤ (walkLevels pred s i rem l).rem := by
  induction l generalizing rem with
  | nil => simpa [walkLevels]
  | cons kv rest ih =>
    obtain ⟨k, q⟩ := kv
    simp only [walkLevels]
    by_cases hp : pred k
    · by_cases hr : rem ≤ 0
      · simpa [hp, hr]
      · simp only [hp, hr, not_true_eq_false, Bool.not_true, if_false,
          ite_false, ite_true, not_false_eq_true, Bool.false_eq_true]
        exact ih _ (matchQueue_rem_nonneg s i rem q h)
    · simpa [hp]

theorem sideQty_reverse (l : List Level) : sideQty l.reverse = sideQty l := by
  simp [sideQty, List.map_reverse, List.sum_reverse]

theorem match_limit_sum (ob : Orderbook) (o : Order) :
    sumQ (match_limit_order ob o).trades =
      o.remaining_quantity - (match_limit_order ob o).rem := by
  obtain ⟨i, u, s, t, p, q, rq⟩ := o
  cases s <;> simp [match_limit_order, walkLevels_sum_eq]

theorem match_limit_rem_nonneg (ob : Orderbook) (o : Order)
    (h : 0 ≤ o.remaining_quantity) :
    0 ≤ (match_limit_order ob o).rem := by
  obtain ⟨i, u, s, t, p, q, rq⟩ := o
  simp only at h
  cases s <;> simpa [match_limit_order] using
    walkLevels_rem_nonneg _ _ _ _ _ h

theorem match_limit_conserved (ob : Orderbook) (o : Order) :
    bookTotal ob = bookTotal (match_limit_order ob o).book +
      sumQ (match_limit_order ob o).trades := by
  obtain ⟨i, u, s, t, p, q, rq⟩ := o
  cases s
  · simp only [match_limit_order, bookTotal]
    have := walkLevels_qty_conserved (limitPred .Buy (p.getD 0)) .Buy i rq
      ob.asks
    simp only at this
    linarith
  · simp only [match_limit_order, bookTotal, sideQty_reverse]
    have := walkLevels_qty_conserved (limitPred .Sell (p.getD 0)) .Sell i rq
      ob.bids.reverse
    rw [sideQty_reverse] at this
    linarith

theorem match_market_sum (ob : Orderbook) (o : Order) :
    sumQ (match_market_order ob o).trades =
      o.remaining_quantity - (match_market_order ob o).rem := by
  obtain ⟨i, u, s, t, p, q, rq⟩ := o
  cases s <;> simp [match_market_order, walkLevels_sum_eq]

theorem match_market_rem_nonneg (ob : Orderbook) (o : Order)
    (h : 0 ≤ o.remaining_quantity) :
    0 ≤ (match_market_order ob o).rem := by
  obtain ⟨i, u, s, t, p, q, rq⟩ := o
  simp only at h
  cases s <;> simpa [match_market_order] using
    walkLevels_rem_nonneg _ _ _ _ _ h

theorem match_market_conserved (ob : Orderbook) (o : Order) :
    bookTotal ob = bookTotal (match_market_order ob o).book +
      sumQ (match_market_order ob o).trades := by
  obtain ⟨i, u, s, t, p, q, rq⟩ := o
  cases s
  · simp only [match_market_order, bookTotal]
    have := walkLevels_qty_conserved (fun _ => true) .Buy i rq ob.asks
    simp only at this
    linarith
  · simp only [match_market_order, bookTotal, sideQty_reverse]
    have := walkLevels_qty_conserved (fun _ => true) .Sell i rq ob.bids.reverse
    rw [sideQty_reverse] at this
    linarith

theorem walkLevels_keys_sublist (pred : Nat → Bool) (s : OrderSide)
    (i : String) (rem : ℚ) (l : List Level) :
    ((walkLevels pred s i rem l).levels.map Prod.fst).Sublist
      (l.map Prod.fst) := by
  induction l generalizing rem with
  | nil => simp [walkLevels]
  | cons kv rest ih =>
    obtain ⟨k, q⟩ := kv
    simp only [walkLevels]
    by_cases hp : pred k
    · by_cases hr : rem ≤ 0
      · simp [hp, hr]
      · simp only [hp, hr, not_true_eq_false, Bool.not_true, if_false,
          ite_false, ite_true, not_false_eq_true, Bool.false_eq_true]
        by_cases hq : (matchQueue s i rem q).queue.isEmpty = true
        · rw [if_pos hq]
          simp only [List.map_cons]
          exact (ih _).cons k
        · rw [if_neg hq]
          simp only [List.map_cons]
          exact (ih _).cons₂ k
    · simp [hp]

theorem insertLevel_keys (k : Nat) (o : Order) (l : List Level) (b : Nat)
    (hb : b ∈ (insertLevel k o l).map Prod.fst) :
    b = k ∨ b ∈ l.map Prod.fst := by
  induction l with
  | nil => simpa [insertLevel] using hb
  | cons kv rest ih =>
    obtain ⟨k', q⟩ := kv
    simp only [insertLevel] at hb
    by_cases h1 : k < k'
    · rw [if_pos h1] at hb
      simp only [List.map_cons, List.mem_cons] at hb ⊢
      tauto
    · rw [if_neg h1] at hb
      by_cases h2 : k = k'
      · rw [if_pos h2] at hb
        simp only [List.map_cons, List.mem_cons] at hb ⊢
        tauto
      · rw [if_neg h2] at hb
        simp only [List.map_cons, List.mem_cons] at hb ⊢
        rcases hb with hb | hb
        · tauto
        · rcases ih hb with hb | hb <;> tauto

theorem insertLevel_sorted (k : Nat) (o : Order) (l : List Level)
    (h : sortedSide l) : sortedSide (insertLevel k o l) := by
  induction l with
  | nil =>
    simp [insertLevel, sortedSide]
  | cons kv rest ih =>
    obtain ⟨k', q⟩ := kv
    simp only [sortedSide, List.map_cons, List.pairwise_cons] at h
    simp only [sortedSide, insertLevel]
    by_cases h1 : k < k'
    · rw [if_pos h1]
      simp only [List.map_cons, List.pairwise_cons, List.mem_cons]
      refine ⟨?_, h.1, h.2⟩
      rintro b (rfl | hb)
      · exact h1
      · exact h1.trans (h.1 b hb)
    · rw [if_neg h1]
      by_cases h2 : k = k'
      · rw [if_pos h2]
        simp only [List.map_cons, List.pairwise_cons]
        exact h
      · rw [if_neg h2]
        simp only [List.map_cons, List.pairwise_cons]
        refine ⟨?_, ih h.2⟩
        intro b hb
        rcases insertLevel_keys k o rest b hb with rfl | hb
        · exact lt_of_le_of_ne (not_lt.mp h1) (Ne.symm h2)
        · exact h.1 b hb

theorem add_to_book_sorted (ob : Orderbook) (o : Order) (h : sortedBook ob) :
    sortedBook (add_to_book ob o) := by
  obtain ⟨i, u, s, t, p, q, rq⟩ := o
  cases s
  · exact ⟨insertLevel_sorted _ _ _ h.1, h.2⟩
  · exact ⟨h.1, insertLevel_sorted _ _ _ h.2⟩

theorem match_limit_sorted (ob : Orderbook) (o : Order) (h : sortedBook ob) :
    sortedBook (match_limit_order ob o).book := by
  obtain ⟨i, u, s, t, p, q, rq⟩ := o
  cases s
  · refine ⟨h.1, ?_⟩
    exact List.Pairwise.sublist (walkLevels_keys_sublist _ _ _ _ _) h.2
  · refine ⟨?_, h.2⟩
    have h1 := walkLevels_keys_sublist (limitPred .Sell (p.getD 0)) .Sell i rq
      ob.bids.reverse
    have h2 := h1.reverse
    rw [List.map_reverse, List.reverse_reverse] at h2
    simp only [match_limit_order, sortedSide, List.map_reverse]
    exact List.Pairwise.sublist h2 h.1

theorem match_market_sorted (ob : Orderbook) (o : Order) (h : sortedBook ob) :
    sortedBook (match_market_order ob o).book := by
  obtain ⟨i, u, s, t, p, q, rq⟩ := o
  cases s
  · refine ⟨h.1, ?_⟩
    exact List.Pairwise.sublist (walkLevels_keys_sublist _ _ _ _ _) h.2
  · refine ⟨?_, h.2⟩
    have h1 := walkLevels_keys_sublist (fun _ => true) .Sell i rq
      ob.bids.reverse
    have h2 := h1.reverse
    rw [List.map_reverse, List.reverse_reverse] at h2
    simp only [match_market_order, sortedSide, List.map_reverse]
    exact List.Pairwise.sublist h2 h.1

theorem add_order_sorted (ob : Orderbook) (o : Order) (h : sortedBook ob) :
    sortedBook (add_order ob o).2 := by
  obtain ⟨i, u, s, t, p, q, rq⟩ := o
  cases t
  · simp only [add_order]
    by_cases hn : (Option.isNone p) = true
    · simpa [hn] using h
    · simp only [hn, Bool.false_eq_true, if_false]
      have hm := match_limit_sorted ob ⟨i, u, s, .LimitOrder, p, q, rq⟩ h
      by_cases h1 : 0 < (match_limit_order ob
          ⟨i, u, s, .LimitOrder, p, q, rq⟩).rem
      · have hb := add_to_book_sorted _
          { id := i, user_id := u, side := s, order_type := .LimitOrder,
            price := p, quantity := q,
            remaining_quantity := (match_limit_order ob
              ⟨i, u, s, .LimitOrder, p, q, rq⟩).rem } hm
        by_cases h2 : (match_limit_order ob
            ⟨i, u, s, .LimitOrder, p, q, rq⟩).trades.isEmpty = true
        · simpa [h1, h2] using hb
        · simpa [h1, h2] using hb
      · simpa [h1] using hm
  · simp only [add_order]
    have hm := match_market_sorted ob ⟨i, u, s, .MarketOrder, p, q, rq⟩ h
    by_cases h1 : 0 < (match_market_order ob
        ⟨i, u, s, .MarketOrder, p, q, rq⟩).rem
    · simpa [h1] using hm
    · by_cases h2 : (match_market_order ob
          ⟨i, u, s, .MarketOrder, p, q, rq⟩).trades.isEmpty = true
      · simpa [h1, h2] using hm
      · simpa [h1, h2] using hm

theorem applyOrders_sorted (os : List Order) : sortedBook (applyOrders os) := by
  suffices h : ∀ ob, sortedBook ob →
      sortedBook (os.foldl (fun b o => (add_order b o).2) ob) by
    exact h Orderbook.emptyBook ⟨List.Pairwise.nil, List.Pairwise.nil⟩
  induction os with
  | nil => intro ob h; simpa using h
  | cons o rest ih =>
    intro ob h
    exact ih _ (add_order_sorted ob o h)

theorem key_to_price_mono {a b : Nat} (h : a ≤ b) :
    key_to_price a ≤ key_to_price b := by
  simp only [key_to_price]
  have hc : (0 : ℚ) < 100000 := by norm_num
  exact (div_le_div_iff_of_pos_right hc).mpr (by exact_mod_cast h)

/-- Claim C7: on every reachable book state, `get_snapshot` aggregates each
level to `(price, sum of remaining quantities)`; bids are walked in
descending and asks in ascending key order, so snapshot bid prices are
monotonically non-increasing and ask prices monotonically non-decreasing. -/
theorem c7_snapshot_ordering (os : List Order) :
    (get_snapshot (applyOrders os)).bids =
      (applyOrders os).bids.reverse.map
        (fun kv => (key_to_price kv.1, levelQty kv.2)) ∧
    (get_snapshot (applyOrders os)).asks =
      (applyOrders os).asks.map
        (fun kv => (key_to_price kv.1, levelQty kv.2)) ∧
    ((get_snapshot (applyOrders os)).bids.map Prod.fst).Pairwise (· ≥ ·) ∧
    ((get_snapshot (applyOrders os)).asks.map Prod.fst).Pairwise (· ≤ ·) := by
  obtain ⟨hb, ha⟩ := applyOrders_sorted os
  refine ⟨rfl, rfl, ?_, ?_⟩
  · show (((applyOrders os).bids.reverse.map
        (fun kv => (key_to_price kv.1, levelQty kv.2))).map Prod.fst).Pairwise
        (· ≥ ·)
    rw [List.map_map, List.map_reverse, List.pairwise_reverse,
      List.pairwise_map]
    rw [sortedSide, List.pairwise_map] at hb
    exact hb.imp fun hlt => key_to_price_mono (le_of_lt hlt)
  · show (((applyOrders os).asks.map
        (fun kv => (key_to_price kv.1, levelQty kv.2))).map Prod.fst).Pairwise
        (· ≤ ·)
    rw [List.map_map, List.pairwise_map]
    rw [sortedSide, List.pairwise_map] at ha
    exact ha.imp fun hlt => key_to_price_mono (le_of_lt hlt)

/-- Claim C9: for an order submitted with `remaining_quantity` initialized
to its (non-negative) `quantity`, the matcher `add_order` invokes emits
trades whose quantities sum to at most the order's quantity, and the total
amount removed from resting makers (the drop in the book's total resting
quantity) equals that same sum — for both the limit and the market matcher. -/
theorem c9_quantity_conservation (ob : Orderbook) (o : Order)
    (hinit : o.remaining_quantity = o.quantity) (h0 : 0 ≤ o.quantity) :
    (sumQ (match_limit_order ob o).trades ≤ o.quantity ∧
     bookTotal ob = bookTotal (match_limit_order ob o).book +
       sumQ (match_limit_order ob o).trades) ∧
    (sumQ (match_market_order ob o).trades ≤ o.quantity ∧
     bookTotal ob = bookTotal (match_market_order ob o).book +
       sumQ (match_market_order ob o).trades) := by
  have hr0 : 0 ≤ o.remaining_quantity := hinit ▸ h0
  refine ⟨⟨?_, match_limit_conserved ob o⟩, ⟨?_, match_market_conserved ob o⟩⟩
  · have h1 := match_limit_sum ob o
    have h2 := match_limit_rem_nonneg ob o hr0
    linarith [hinit ▸ h1]
  · have h1 := match_market_sum ob o
    have h2 := match_market_rem_nonneg ob o hr0
    linarith [hinit ▸ h1]

/-- Claim C9 witness: conservation at a concrete input — Buy Limit 10 @ 100
against the book holding Sell Limit 3 @ 100 (trades sum to 3 ≤ 10 and the
book's resting total drops from 3 to 0). -/
theorem c9_witness :
    (sumQ (match_limit_order askBook3at100 (mkLimit "B" .Buy 100 10)).trades ≤
      (mkLimit "B" .Buy 100 10).quantity ∧
     bookTotal askBook3at100 =
       bookTotal (match_limit_order askBook3at100 (mkLimit "B" .Buy 100 10)).book +
       sumQ (match_limit_order askBook3at100 (mkLimit "B" .Buy 100 10)).trades) ∧
    (sumQ (match_market_order askBook3at100 (mkLimit "B" .Buy 100 10)).trades ≤
      (mkLimit "B" .Buy 100 10).quantity ∧
     bookTotal askBook3at100 =
       bookTotal (match_market_order askBook3at100 (mkLimit "B" .Buy 100 10)).book +
       sumQ (match_market_order askBook3at100 (mkLimit "B" .Buy 100 10)).trades) :=
  c9_quantity_conservation askBook3at100 (mkLimit "B" .Buy 100 10) rfl
    (by with_unfolding_all decide)

theorem matchQueue_queue_good (s : OrderSide) (i : String) (rem : ℚ)
    (q : List Order) (k : Nat) (h : ∀ o ∈ q, goodOrder k o) :
    ∀ o ∈ (matchQueue s i rem q).queue, goodOrder k o := by
  induction q generalizing rem with
  | nil => simp [matchQueue]
  | cons m rest ih =>
    simp only [matchQueue]
    by_cases h1 : 0 < m.remaining_quantity - min rem m.remaining_quantity
    · rw [if_pos h1]
      intro o ho
      rcases List.mem_cons.mp ho with rfl | ho
      · have hm := h m (List.mem_cons_self m rest)
        exact ⟨hm.1, h1, hm.2.2.1, hm.2.2.2⟩
      · exact h o (List.mem_cons_of_mem m ho)
    · rw [if_neg h1]
      by_cases h2 : rem - min rem m.remaining_quantity ≤ 0
      · rw [if_pos h2]
        intro o ho
        exact h o (List.mem_cons_of_mem m ho)
      · rw [if_neg h2]
        exact ih _ (fun o ho => h o (List.mem_cons_of_mem m ho))

theorem walkLevels_WFside (pred : Nat → Bool) (s : OrderSide) (i : String)
    (rem : ℚ) (l : List Level) (h : WFside l) :
    WFside (walkLevels pred s i rem l).levels := by
  induction l generalizing rem with
  | nil => simpa [walkLevels]
  | cons kv rest ih =>
    obtain ⟨k, q⟩ := kv
    simp only [walkLevels]
    by_cases hp : pred k
    · by_cases hr : rem ≤ 0
      · simpa [hp, hr] using h
      · simp only [hp, hr, not_true_eq_false, Bool.not_true, if_false,
          ite_false, ite_true, not_false_eq_true, Bool.false_eq_true]
        have hrest : WFside rest := fun kv hkv => h kv (List.mem_cons_of_mem _ hkv)
        by_cases hq : (matchQueue s i rem q).queue.isEmpty = true
        · rw [if_pos hq]
          exact ih _ hrest
        · rw [if_neg hq]
          intro kv hkv
          rcases List.mem_cons.mp hkv with rfl | hkv
          · constructor
            · intro hnil
              exact hq (List.isEmpty_iff.mpr hnil)
            · exact matchQueue_queue_good s i rem q k
                (h (k, q) (List.mem_cons_self _ _)).2
          · exact ih _ hrest kv hkv
    · simpa [hp] using h

theorem WFside_reverse (l : List Level) : WFside l.reverse ↔ WFside l := by
  simp [WFside]

theorem insertLevel_WFside (k : Nat) (o : Order) (l : List Level)
    (h : WFside l) (ho : goodOrder k o) : WFside (insertLevel k o l) := by
  induction l with
  | nil =>
    intro kv hkv
    simp only [insertLevel, List.mem_singleton] at hkv
    subst hkv
    exact ⟨List.cons_ne_nil o [], by
      intro o' ho'
      rcases List.mem_singleton.mp ho' with rfl
      exact ho⟩
  | cons kv' rest ih =>
    obtain ⟨k', q⟩ := kv'
    simp only [insertLevel]
    by_cases h1 : k < k'
    · rw [if_pos h1]
      intro kv hkv
      rcases List.mem_cons.mp hkv with rfl | hkv
      · exact ⟨List.cons_ne_nil o [], by
          intro o' ho'
          rcases List.mem_singleton.mp ho' with rfl
          exact ho⟩
      · exact h kv hkv
    · rw [if_neg h1]
      by_cases h2 : k = k'
      · rw [if_pos h2]
        intro kv hkv
        rcases List.mem_cons.mp hkv with rfl | hkv
        · refine ⟨by simp, ?_⟩
          intro o' ho'
          rcases List.mem_append.mp ho' with ho' | ho'
          · exact (h (k', q) (List.mem_cons_self _ _)).2 o' ho'
          · rcases List.mem_singleton.mp ho' with rfl
            exact h2 ▸ ho
        · exact h kv (List.mem_cons_of_mem _ hkv)
      · rw [if_neg h2]
        intro kv hkv
        rcases List.mem_cons.mp hkv with rfl | hkv
        · exact h (k', q) (List.mem_cons_self _ _)
        · exact ih (fun x hx => h x (List.mem_cons_of_mem _ hx)) kv hkv

theorem add_to_book_WF (ob : Orderbook) (o : Order) (h : WFbook ob)
    (hty : o.order_type = .LimitOrder) (hp : o.price.isSome = true)
    (hr : 0 < o.remaining_quantity) : WFbook (add_to_book ob o) := by
  obtain ⟨i, u, s, t, pr, q, rq⟩ := o
  simp only at hty hp hr
  cases s
  · exact ⟨insertLevel_WFside _ _ _ h.1 ⟨hty, hr, hp, rfl⟩, h.2⟩
  · exact ⟨h.1, insertLevel_WFside _ _ _ h.2 ⟨hty, hr, hp, rfl⟩⟩

theorem match_limit_WF (ob : Orderbook) (o : Order) (h : WFbook ob) :
    WFbook (match_limit_order ob o).book := by
  obtain ⟨i, u, s, t, p, q, rq⟩ := o
  cases s
  · exact ⟨h.1, walkLevels_WFside _ _ _ _ _ h.2⟩
  · refine ⟨?_, h.2⟩
    exact (WFside_reverse _).mpr
      (walkLevels_WFside _ _ _ _ _ ((WFside_reverse _).mpr h.1))

theorem match_market_WF (ob : Orderbook) (o : Order) (h : WFbook ob) :
    WFbook (match_market_order ob o).book := by
  obtain ⟨i, u, s, t, p, q, rq⟩ := o
  cases s
  · exact ⟨h.1, walkLevels_WFside _ _ _ _ _ h.2⟩
  · refine ⟨?_, h.2⟩
    exact (WFside_reverse _).mpr
      (walkLevels_WFside _ _ _ _ _ ((WFside_reverse _).mpr h.1))

theorem add_order_WF (ob : Orderbook) (o : Order) (h : WFbook ob) :
    WFbook (add_order ob o).2 := by
  obtain ⟨i, u, s, t, p, q, rq⟩ := o
  cases t
  · simp only [add_order]
    by_cases hn : (Option.isNone p) = true
    · simpa [hn] using h
    · simp only [hn, Bool.false_eq_true, if_false]
      have hm := match_limit_WF ob ⟨i, u, s, .LimitOrder, p, q, rq⟩ h
      by_cases h1 : 0 < (match_limit_order ob
          ⟨i, u, s, .LimitOrder, p, q, rq⟩).rem
      · have hps : p.isSome = true := by
          cases p
          · simp at hn
          · rfl
        have hb := add_to_book_WF _
          { id := i, user_id := u, side := s, order_type := .LimitOrder,
            price := p, quantity := q,
            remaining_quantity := (match_limit_order ob
              ⟨i, u, s, .LimitOrder, p, q, rq⟩).rem } hm rfl hps h1
        by_cases h2 : (match_limit_order ob
            ⟨i, u, s, .LimitOrder, p, q, rq⟩).trades.isEmpty = true
        · simpa [h1, h2] using hb
        · simpa [h1, h2] using hb
      · simpa [h1] using hm
  · simp only [add_order]
    have hm := match_market_WF ob ⟨i, u, s, .MarketOrder, p, q, rq⟩ h
    by_cases h1 : 0 < (match_market_order ob
        ⟨i, u, s, .MarketOrder, p, q, rq⟩).rem
    · simpa [h1] using hm
    · by_cases h2 : (match_market_order ob
          ⟨i, u, s, .MarketOrder, p, q, rq⟩).trades.isEmpty = true
      · simpa [h1, h2] using hm
      · simpa [h1, h2] using hm

/-- Claim C8: after any sequence of `add_order` calls starting from the
empty book, every `(key, queue)` entry on either side has a non-empty queue
(key present iff queue non-empty), and every queued order is a Limit with
positive `remaining_quantity` whose price quantizes to the key it is filed
under. -/
theorem c8_book_invariants (os : List Order) : WFbook (applyOrders os) := by
  suffices h : ∀ ob, WFbook ob →
      WFbook (os.foldl (fun b o => (add_order b o).2) ob) by
    refine h Orderbook.emptyBook ⟨?_, ?_⟩ <;> intro kv hkv <;> cases hkv
  induction os with
  | nil => intro ob h; simpa using h
  | cons o rest ih =>
    intro ob h
    exact ih _ (add_order_WF ob o h)

/-- Claim C10: a Limit order carrying a price but zero quantity (and zero
remaining quantity) is not rejected: `add_order` answers `Filled` with
`filled_quantity` 0 and no trades, and the book is untouched. -/
theorem c10_zero_qty_limit (ob : Orderbook) (o : Order) (p : ℚ)
    (hty : o.order_type = .LimitOrder) (hp : o.price = some p)
    (hq : o.quantity = 0) (hr : o.remaining_quantity = 0) :
    add_order ob o = (.Filled o.id 0 [], ob) := by
  obtain ⟨i, u, s, t, pr, q, rq⟩ := o
  simp only at hty hp hq hr
  subst hty hp hq hr
  cases s
  · simp [add_order, match_limit_order, walkLevels_nonpos]
  · simp [add_order, match_limit_order, walkLevels_nonpos, List.reverse_reverse]

/-- Claim C10 witness: the zero-quantity Limit Buy at price 100 against the
book holding Sell Limit 3 @ 100. -/
theorem c10_witness :
    add_order askBook3at100 ⟨"Z", "u", .Buy, .LimitOrder, some 100, 0, 0⟩ =
      (.Filled "Z" 0 [], askBook3at100) :=
  c10_zero_qty_limit askBook3at100 ⟨"Z", "u", .Buy, .LimitOrder, some 100, 0, 0⟩
    100 rfl rfl rfl rfl

end CLOB
